import Mathlib

/-!
Verification of the bit-manipulation utilities of the p3-util crate
(src/util/src/lib.rs).

Machine integers (usize, 64-bit targets) are modelled as Nat together with
explicit bounds x < 2 ^ 64 where the width matters.  Operations that can
panic (assertions, unwraps, overflow-checked shifts) are modelled as
Except String.  Hardware bit-scan intrinsics (leading_zeros,
trailing_zeros, reverse_bits) are modelled by fuel-bounded structural
recursions with fuel 64, which is exact for a 64-bit word.
-/

namespace P3Util

/-- Bit width of usize on the 64-bit targets the crate targets. -/
def USIZE_BITS : Nat := 64

/-- Number of significant bits of x (bit length); exact whenever
x < 2 ^ fuel.  Auxiliary for the leading_zeros intrinsic. -/
def sizeAux : Nat → Nat → Nat
  | 0, _ => 0
  | fuel + 1, x => if x = 0 then 0 else sizeAux fuel (x / 2) + 1

/-- Models usize::leading_zeros for x < 2 ^ 64. -/
def leading_zeros (x : Nat) : Nat := USIZE_BITS - sizeAux USIZE_BITS x

/-- Models log2_ceil_usize from src/util/src/lib.rs:
(usize::BITS - n.saturating_sub(1).leading_zeros()) as usize.
Nat subtraction already saturates at 0, matching saturating_sub. -/
def log2_ceil_usize (n : Nat) : Nat := USIZE_BITS - leading_zeros (n - 1)

/-- Counts trailing zero bits with explicit fuel; with fuel 64 it matches
usize::trailing_zeros on a 64-bit word (in particular it returns the
fuel, 64, on input 0). -/
def tzAux : Nat → Nat → Nat
  | 0, _ => 0
  | fuel + 1, x => if x % 2 = 1 then 0 else tzAux fuel (x / 2) + 1

/-- Models usize::trailing_zeros for x < 2 ^ 64 (trailing_zeros 0 = 64). -/
def trailing_zeros (x : Nat) : Nat := tzAux USIZE_BITS x

/-- Models usize::wrapping_shr: the shift amount is reduced mod the width. -/
def wrapping_shr (x k : Nat) : Nat := x / 2 ^ (k % USIZE_BITS)

/-- Models log2_strict_usize from src/util/src/lib.rs: res =
n.trailing_zeros(); assert_eq!(n.wrapping_shr(res), 1, "Not a power of
two"); res.  The assertion failure is modelled as Except.error. -/
def log2_strict_usize (n : Nat) : Except String Nat :=
  let res := trailing_zeros n
  if wrapping_shr n res = 1 then Except.ok res
  else Except.error "Not a power of two"

/-- Reverses the low w bits of x: bit i of x becomes bit w - 1 - i of the
result.  Auxiliary for the reverse_bits intrinsic. -/
def revBitsAux : Nat → Nat → Nat
  | 0, _ => 0
  | w + 1, x => x % 2 * 2 ^ w + revBitsAux w (x / 2)

/-- Models usize::reverse_bits on a 64-bit word. -/
def usize_reverse_bits (x : Nat) : Nat := revBitsAux USIZE_BITS x

/-- Models usize::overflowing_shr: the shift amount is reduced mod the
width, and the flag records whether the requested shift was >= the
width. -/
def overflowing_shr (x k : Nat) : Nat × Bool := (x / 2 ^ (k % USIZE_BITS), decide (USIZE_BITS ≤ k))

/-- Models reverse_bits_len from src/util/src/lib.rs:
x.reverse_bits().overflowing_shr(usize::BITS - bit_len as u32).0 -/
def reverse_bits_len (x bit_len : Nat) : Nat :=
  (overflowing_shr (usize_reverse_bits x) (USIZE_BITS - bit_len)).1

/-- Models reverse_bits from src/util/src/lib.rs:
reverse_bits_len(x, n.trailing_zeros() as usize). -/
def reverse_bits (x n : Nat) : Nat := reverse_bits_len x (trailing_zeros n)

/-- Models slice::swap on a list; out-of-bounds indices leave the list
unchanged (the permutation below only swaps in-bounds indices). -/
def listSwap {α : Type} (l : List α) (i j : Nat) : List α :=
  match l[i]?, l[j]? with
  | some a, some b => (l.set i b).set j a
  | _, _ => l

/-- The loop of reverse_slice_index_bits: with fuel indices remaining and
current index i, compute j = reverse_bits_len(i, log_n) and swap i with j
when i < j. -/
def bitrevLoop {α : Type} (log_n : Nat) : Nat → Nat → List α → List α
  | 0, _, l => l
  | fuel + 1, i, l =>
    bitrevLoop log_n fuel (i + 1)
      (if i < reverse_bits_len i log_n then listSwap l i (reverse_bits_len i log_n) else l)

/-- Models reverse_slice_index_bits from src/util/src/lib.rs: return
unchanged on the empty slice, otherwise log_n = log2_strict_usize(n)
(propagating its panic) and one pass of conditional swaps. -/
def reverse_slice_index_bits {α : Type} (vals : List α) : Except String (List α) :=
  let n := vals.length
  if n = 0 then Except.ok vals
  else
    match log2_strict_usize n with
    | Except.error e => Except.error e
    | Except.ok log_n => Except.ok (bitrevLoop log_n n 0 vals)

/-- Models bitmask for an unsigned integer type of bit width w:
(one << n_bits) - one, where the left shift is overflow-checked and
panics when n_bits >= w (Rust arithmetic-overflow check on shifts). -/
def bitmask (w n_bits : Nat) : Except String Nat :=
  if n_bits < w then Except.ok (2 ^ n_bits - 1)
  else Except.error "attempt to shift left with overflow"

/-- Models split_bits on usize from src/util/src/lib.rs:
(x >> n, x & ((1 << n) - 1)); both shifts are overflow-checked and panic
when n >= 64. -/
def split_bits (x n : Nat) : Except String (Nat × Nat) :=
  if n < USIZE_BITS then Except.ok (x >>> n, x &&& ((1 <<< n) - 1))
  else Except.error "attempt to shift with overflow"

/-- Column j of a list of rows: each row contributes its element at
index j; none models the n.next().unwrap() panic when a row is shorter
than j + 1. -/
def columnOf {α : Type} : List (List α) → Nat → Option (List α)
  | [], _ => some []
  | r :: rs, j =>
    match r[j]?, columnOf rs j with
    | some x, some c => some (x :: c)
    | _, _ => none

/-- Columns j, j + 1, ..., j + count - 1 of a list of rows, in order. -/
def columnsFrom {α : Type} (v : List (List α)) : Nat → Nat → Option (List (List α))
  | _, 0 => some []
  | j, count + 1 =>
    match columnOf v j, columnsFrom v (j + 1) count with
    | some c, some cs => some (c :: cs)
    | _, _ => none

/-- Models transpose_vec from src/util/src/lib.rs: assert!(!v.is_empty()),
then build v[0].len() columns, each taking the next element of every row
in order; a row shorter than the first one makes the unwrap panic
(modelled as Except.error), and longer rows have their excess ignored. -/
def transpose_vec {α : Type} (v : List (List α)) : Except String (List (List α)) :=
  match v with
  | [] => Except.error "assertion failed: !v.is_empty()"
  | r :: rs =>
    match columnsFrom (r :: rs) 0 r.length with
    | some cols => Except.ok cols
    | none => Except.error "called Option::unwrap() on a None value"

/-- Double lookup m[i][j] as an Option, for stating transpose facts. -/
def get2? {α : Type} (m : List (List α)) (i j : Nat) : Option α :=
  (m[i]?).bind fun r => r[j]?

/-! ### Bit-length lemmas (leading_zeros, log2_ceil_usize) -/

lemma sizeAux_lt (fuel : Nat) : ∀ x, x < 2 ^ fuel → x < 2 ^ sizeAux fuel x := by
  induction fuel with
  | zero => intro x hx; simpa [sizeAux] using hx
  | succ fuel ih =>
    intro x hx
    by_cases h0 : x = 0
    · subst h0; simp [sizeAux]
    · have hpow : (2:Nat) ^ (fuel + 1) = 2 * 2 ^ fuel := by ring
      have hdiv : x / 2 < 2 ^ fuel := by omega
      have hrec := ih (x / 2) hdiv
      simp only [sizeAux, h0, if_false]
      have hpow2 : (2:Nat) ^ (sizeAux fuel (x / 2) + 1) = 2 * 2 ^ sizeAux fuel (x / 2) := by
        ring
      omega

lemma sizeAux_le (fuel : Nat) : ∀ x m, x < 2 ^ m → sizeAux fuel x ≤ m := by
  induction fuel with
  | zero => intro x m _; simp [sizeAux]
  | succ fuel ih =>
    intro x m hx
    by_cases h0 : x = 0
    · simp [sizeAux, h0]
    · simp only [sizeAux, h0, if_false]
      have hm : m ≠ 0 := by
        rintro rfl
        simp at hx
        omega
      obtain ⟨m, rfl⟩ := Nat.exists_eq_succ_of_ne_zero hm
      have hpow : (2:Nat) ^ (m + 1) = 2 * 2 ^ m := by ring
      have hdiv : x / 2 < 2 ^ m := by omega
      have := ih (x / 2) m hdiv
      omega

lemma sizeAux_pos (fuel x : Nat) (h0 : x ≠ 0) (hfuel : fuel ≠ 0) : 1 ≤ sizeAux fuel x := by
  obtain ⟨fuel, rfl⟩ := Nat.exists_eq_succ_of_ne_zero hfuel
  simp only [sizeAux, h0, if_false]
  omega

lemma two_pow_sizeAux_pred_le (fuel x : Nat) (h0 : x ≠ 0) (hfuel : fuel ≠ 0) :
    2 ^ (sizeAux fuel x - 1) ≤ x := by
  by_contra h
  push_neg at h
  have h1 := sizeAux_le fuel x (sizeAux fuel x - 1) h
  have h2 := sizeAux_pos fuel x h0 hfuel
  omega

lemma log2_ceil_usize_eq (n : Nat) (h : n < 2 ^ 64) :
    log2_ceil_usize n = sizeAux 64 (n - 1) := by
  have hle : sizeAux 64 (n - 1) ≤ 64 := sizeAux_le 64 (n - 1) 64 (by omega)
  simp only [log2_ceil_usize, leading_zeros, USIZE_BITS]
  omega

/-- C7: for every usize value n, log2_ceil_usize n is the smallest m with
2 ^ m ≥ n (in particular 2 ^ log2_ceil_usize n ≥ n); n = 0 yields 0; and
2 ^ (log2_ceil_usize n - 1) < n whenever 1 < n. -/
theorem log2_ceil_usize_spec (n : Nat) (h : n < 2 ^ 64) :
    n ≤ 2 ^ log2_ceil_usize n ∧
    (∀ m, n ≤ 2 ^ m → log2_ceil_usize n ≤ m) ∧
    log2_ceil_usize 0 = 0 ∧
    (1 < n → 2 ^ (log2_ceil_usize n - 1) < n) := by
  rw [log2_ceil_usize_eq n h]
  refine ⟨?_, ?_, by decide, ?_⟩
  · have := sizeAux_lt 64 (n - 1) (by omega)
    omega
  · intro m hm
    have hpos : (0:Nat) < 2 ^ m := Nat.pow_pos (by omega)
    exact sizeAux_le 64 (n - 1) m (by omega)
  · intro h1
    have := two_pow_sizeAux_pred_le 64 (n - 1) (by omega) (by omega)
    omega

/-- Witness for C7 at n = 5 (log2_ceil_usize 5 = 3). -/
theorem log2_ceil_usize_spec_witness :
    5 ≤ 2 ^ log2_ceil_usize 5 ∧
    (∀ m, 5 ≤ 2 ^ m → log2_ceil_usize 5 ≤ m) ∧
    log2_ceil_usize 0 = 0 ∧
    (1 < 5 → 2 ^ (log2_ceil_usize 5 - 1) < 5) :=
  log2_ceil_usize_spec 5 (by decide)

/-! ### Trailing-zeros lemmas (log2_strict_usize) -/

lemma tzAux_le_fuel (fuel : Nat) : ∀ x, tzAux fuel x ≤ fuel := by
  induction fuel with
  | zero => intro x; simp [tzAux]
  | succ fuel ih =>
    intro x
    by_cases h : x % 2 = 1
    · simp [tzAux, h]
    · simp only [tzAux, h, if_false]
      have := ih (x / 2)
      omega

lemma tzAux_zero (fuel : Nat) : tzAux fuel 0 = fuel := by
  induction fuel with
  | zero => rfl
  | succ fuel ih => simp [tzAux, ih]

lemma tzAux_spec (fuel : Nat) : ∀ x, 0 < x → x < 2 ^ fuel →
    2 ^ tzAux fuel x ∣ x ∧ x / 2 ^ tzAux fuel x % 2 = 1 := by
  induction fuel with
  | zero => intro x hx h; simp at h; omega
  | succ fuel ih =>
    intro x hx h
    by_cases hodd : x % 2 = 1
    · simp [tzAux, hodd]
    · simp only [tzAux, hodd, if_false]
      have hx2 : 0 < x / 2 := by omega
      have hpow : (2:Nat) ^ (fuel + 1) = 2 * 2 ^ fuel := by ring
      have hlt : x / 2 < 2 ^ fuel := by omega
      obtain ⟨hdvd, hodd2⟩ := ih (x / 2) hx2 hlt
      set t := tzAux fuel (x / 2) with ht
      constructor
      · obtain ⟨c, hc⟩ := hdvd
        refine ⟨c, ?_⟩
        have hx_even : x = 2 * (x / 2) := by omega
        rw [hx_even, hc, pow_succ]
        ring
      · have hdd : x / 2 ^ (t + 1) = x / 2 / 2 ^ t := by
          rw [Nat.div_div_eq_div_mul, pow_succ, mul_comm]
        rw [hdd]
        exact hodd2

lemma tzAux_two_pow (fuel : Nat) : ∀ m, m < fuel → tzAux fuel (2 ^ m) = m := by
  induction fuel with
  | zero => intro m hm; omega
  | succ fuel ih =>
    intro m hm
    cases m with
    | zero => simp [tzAux]
    | succ m =>
      have hpow : (2:Nat) ^ (m + 1) = 2 * 2 ^ m := by ring
      have h2 : 2 ^ (m + 1) % 2 = 0 := by omega
      have hstep : tzAux (fuel + 1) (2 ^ (m + 1)) = tzAux fuel (2 ^ (m + 1) / 2) + 1 := by
        simp [tzAux, h2]
      have hdiv : 2 ^ (m + 1) / 2 = 2 ^ m := by omega
      rw [hstep, hdiv, ih m (by omega)]

lemma trailing_zeros_eq_tzAux (n : Nat) : trailing_zeros n = tzAux 64 n := rfl

lemma log2_strict_usize_two_pow (m : Nat) (hm : m < 64) :
    log2_strict_usize (2 ^ m) = Except.ok m := by
  have h1 : trailing_zeros (2 ^ m) = m := tzAux_two_pow 64 m hm
  have h2 : wrapping_shr (2 ^ m) m = 1 := by
    have hp : (0:Nat) < 2 ^ m := Nat.pow_pos (by omega)
    simp only [wrapping_shr, USIZE_BITS, Nat.mod_eq_of_lt hm]
    exact Nat.div_self hp
  simp [log2_strict_usize, h1, h2]

lemma log2_strict_usize_not_pow (n : Nat) (hn : n < 2 ^ 64) (h : ∀ m, n ≠ 2 ^ m) :
    log2_strict_usize n = Except.error "Not a power of two" := by
  by_cases h0 : n = 0
  · subst h0
    have ht : trailing_zeros 0 = 64 := tzAux_zero 64
    simp [log2_strict_usize, ht, wrapping_shr, USIZE_BITS]
  · have hpos : 0 < n := by omega
    obtain ⟨hdvd, hodd⟩ := tzAux_spec 64 n hpos hn
    have htle : tzAux 64 n ≤ 64 := tzAux_le_fuel 64 n
    have htlt : tzAux 64 n < 64 := by
      by_contra h64
      push_neg at h64
      have ht64 : tzAux 64 n = 64 := by omega
      rw [ht64] at hdvd
      have := Nat.le_of_dvd hpos hdvd
      omega
    have hshr : wrapping_shr n (tzAux 64 n) = n / 2 ^ tzAux 64 n := by
      simp [wrapping_shr, USIZE_BITS, Nat.mod_eq_of_lt htlt]
    have hne : n / 2 ^ tzAux 64 n ≠ 1 := by
      intro heq
      have hcan := Nat.div_mul_cancel hdvd
      rw [heq] at hcan
      exact h (tzAux 64 n) (by omega)
    simp [log2_strict_usize, trailing_zeros_eq_tzAux, hshr, hne]

/-- C6: for n a power of two (within usize), log2_strict_usize returns the
exact exponent; for any other n, including 0, it fails with the
"Not a power of two" assertion rather than returning a value. -/
theorem log2_strict_usize_spec (n : Nat) (hn : n < 2 ^ 64) :
    (∀ m, n = 2 ^ m → log2_strict_usize n = Except.ok m) ∧
    ((∀ m, n ≠ 2 ^ m) → log2_strict_usize n = Except.error "Not a power of two") := by
  constructor
  · rintro m rfl
    refine log2_strict_usize_two_pow m ?_
    by_contra h64
    push_neg at h64
    have : (2:Nat) ^ 64 ≤ 2 ^ m := Nat.pow_le_pow_right (by omega) h64
    omega
  · exact log2_strict_usize_not_pow n hn

/-- Witness for C6 at n = 8 (returns ok 3). -/
theorem log2_strict_usize_spec_witness : log2_strict_usize 8 = Except.ok 3 :=
  (log2_strict_usize_spec 8 (by decide)).1 3 (by decide)

/-! ### Bit-reversal lemmas (reverse_bits_len, reverse_bits) -/

lemma revBitsAux_lt (w : Nat) : ∀ x, revBitsAux w x < 2 ^ w := by
  induction w with
  | zero => intro x; simp [revBitsAux]
  | succ w ih =>
    intro x
    have h1 := ih (x / 2)
    have hpow : (2:Nat) ^ (w + 1) = 2 * 2 ^ w := by ring
    simp only [revBitsAux]
    rcases Nat.mod_two_eq_zero_or_one x with h | h <;> rw [h] <;> omega

lemma revBitsAux_zero (w : Nat) : revBitsAux w 0 = 0 := by
  induction w with
  | zero => rfl
  | succ w ih => simp [revBitsAux, ih]

lemma testBit_revBitsAux (w : Nat) : ∀ x i, (revBitsAux w x).testBit i =
    if i < w then x.testBit (w - 1 - i) else false := by
  induction w with
  | zero => intro x i; simp [revBitsAux]
  | succ w ih =>
    intro x i
    rcases Nat.lt_trichotomy i w with hlt | heq | hgt
    · rw [if_pos (by omega)]
      have hsplit : (2:Nat) ^ w = 2 ^ i * (2 * 2 ^ (w - i - 1)) := by
        have h1 : (2:Nat) ^ i * (2 * 2 ^ (w - i - 1)) = 2 ^ (i + 1 + (w - i - 1)) := by
          rw [pow_add, pow_succ]; ring
        rw [h1]; congr 1; omega
      have hy : revBitsAux (w + 1) x
          = revBitsAux w (x / 2) + 2 ^ i * (x % 2 * (2 * 2 ^ (w - i - 1))) := by
        simp only [revBitsAux]
        rw [hsplit]; ring
      rw [hy, Nat.testBit_to_div_mod, Nat.add_mul_div_left _ _ (Nat.pow_pos (by omega))]
      have hmod : (revBitsAux w (x / 2) / 2 ^ i + x % 2 * (2 * 2 ^ (w - i - 1))) % 2
          = revBitsAux w (x / 2) / 2 ^ i % 2 := by
        have h2 : x % 2 * (2 * 2 ^ (w - i - 1)) = 2 * (x % 2 * 2 ^ (w - i - 1)) := by ring
        rw [h2, Nat.add_mul_mod_self_left]
      rw [hmod, ← Nat.testBit_to_div_mod, ih (x / 2) i, if_pos hlt, Nat.testBit_div_two]
      congr 1
      omega
    · subst heq
      rw [if_pos (by omega)]
      have hrlt := revBitsAux_lt i (x / 2)
      have hy : revBitsAux (i + 1) x = revBitsAux i (x / 2) + 2 ^ i * (x % 2) := by
        simp only [revBitsAux]; ring
      rw [hy, Nat.testBit_to_div_mod, Nat.add_mul_div_left _ _ (Nat.pow_pos (by omega)),
        Nat.div_eq_of_lt hrlt]
      rw [show i + 1 - 1 - i = 0 from by omega, Nat.testBit_zero]
      have h3 : (0 + x % 2) % 2 = x % 2 := by omega
      rw [h3]
    · rw [if_neg (by omega)]
      refine Nat.testBit_eq_false_of_lt ?_
      calc revBitsAux (w + 1) x < 2 ^ (w + 1) := revBitsAux_lt (w + 1) x
        _ ≤ 2 ^ i := Nat.pow_le_pow_right (by omega) (by omega)

lemma reverse_bits_len_eq_div (x k : Nat) (hk1 : 1 ≤ k) (hk : k ≤ 64) :
    reverse_bits_len x k = usize_reverse_bits x / 2 ^ (64 - k) := by
  have hmod : (64 - k) % 64 = 64 - k := Nat.mod_eq_of_lt (by omega)
  simp [reverse_bits_len, overflowing_shr, USIZE_BITS, hmod]

lemma testBit_reverse_bits_len (x k i : Nat) (hk1 : 1 ≤ k) (hk : k ≤ 64) :
    (reverse_bits_len x k).testBit i = if i < k then x.testBit (k - 1 - i) else false := by
  rw [reverse_bits_len_eq_div x k hk1 hk, ← Nat.shiftRight_eq_div_pow, Nat.testBit_shiftRight]
  simp only [usize_reverse_bits, USIZE_BITS]
  rw [testBit_revBitsAux 64 x (64 - k + i)]
  by_cases h : i < k
  · rw [if_pos (by omega), if_pos h]
    congr 1
    omega
  · rw [if_neg (by omega), if_neg h]

lemma reverse_bits_len_lt (x k : Nat) (hk1 : 1 ≤ k) (hk : k ≤ 64) :
    reverse_bits_len x k < 2 ^ k := by
  rw [reverse_bits_len_eq_div x k hk1 hk]
  have h1 : usize_reverse_bits x < 2 ^ 64 := revBitsAux_lt 64 x
  have h2 : (2:Nat) ^ k * 2 ^ (64 - k) = 2 ^ 64 := by
    rw [← pow_add]; congr 1; omega
  rw [Nat.div_lt_iff_lt_mul (Nat.pow_pos (by omega))]
  omega

lemma reverse_bits_len_zero_zero : reverse_bits_len 0 0 = 0 := by decide

lemma reverse_bits_len_involution (k : Nat) (hk : k ≤ 64) :
    ∀ x, x < 2 ^ k → reverse_bits_len (reverse_bits_len x k) k = x := by
  intro x hx
  by_cases hk0 : k = 0
  · subst hk0
    have h1 : (2:Nat) ^ 0 = 1 := pow_zero 2
    have hx0 : x = 0 := by omega
    subst hx0
    exact reverse_bits_len_zero_zero
  · have hk1 : 1 ≤ k := by omega
    refine Nat.eq_of_testBit_eq fun i => ?_
    rw [testBit_reverse_bits_len _ k i hk1 hk]
    by_cases h : i < k
    · rw [if_pos h, testBit_reverse_bits_len x k _ hk1 hk, if_pos (by omega)]
      congr 1
      omega
    · rw [if_neg h]
      refine (Nat.testBit_eq_false_of_lt ?_).symm
      exact lt_of_lt_of_le hx (Nat.pow_le_pow_right (by omega) (by omega))

lemma reverse_bits_len_mem (k : Nat) (hk : k ≤ 64) :
    ∀ p, p < 2 ^ k → reverse_bits_len p k < 2 ^ k := by
  intro p hp
  by_cases hk0 : k = 0
  · subst hk0
    have h1 : (2:Nat) ^ 0 = 1 := pow_zero 2
    have hp0 : p = 0 := by omega
    subst hp0
    rw [reverse_bits_len_zero_zero]
    decide
  · exact reverse_bits_len_lt p k (by omega) hk

/-- C3 (amended): for 1 ≤ bit_len ≤ 64, bit i of reverse_bits_len x
bit_len equals bit (bit_len - 1 - i) of x for i < bit_len and the bits at
positions ≥ bit_len are zero.  For bit_len = 0 the masked shift of
overflowing_shr makes the code return the fully reversed 64-bit word
usize_reverse_bits x (so the result is 0 only when x = 0, the one value
that fits in 0 bits). -/
theorem reverse_bits_len_spec (x bit_len : Nat) (hx : x < 2 ^ 64) (hk : bit_len ≤ 64) :
    (1 ≤ bit_len → ∀ i, (reverse_bits_len x bit_len).testBit i =
      if i < bit_len then x.testBit (bit_len - 1 - i) else false) ∧
    reverse_bits_len x 0 = usize_reverse_bits x ∧
    reverse_bits_len 0 0 = 0 := by
  refine ⟨fun hk1 i => testBit_reverse_bits_len x bit_len i hk1 hk, ?_,
    reverse_bits_len_zero_zero⟩
  simp [reverse_bits_len, overflowing_shr, USIZE_BITS]

/-- Witness for C3 (amended) at x = 1, bit_len = 3 (result 0b100). -/
theorem reverse_bits_len_spec_witness :
    ((1:Nat) ≤ 3 → ∀ i, (reverse_bits_len 1 3).testBit i =
      if i < 3 then Nat.testBit 1 (3 - 1 - i) else false) ∧
    reverse_bits_len 1 0 = usize_reverse_bits 1 ∧
    reverse_bits_len 0 0 = 0 :=
  reverse_bits_len_spec 1 3 (by decide) (by decide)

/-- C3 counterexample: at bit_len = 0 and x = 1 the code returns 2 ^ 63
(the fully reversed 64-bit word), not 0 as the claim states for every x. -/
theorem reverse_bits_len_bit_len_zero_counterexample :
    reverse_bits_len 1 0 = 2 ^ 63 ∧ reverse_bits_len 1 0 ≠ 0 := by decide

/-- C5 (amended): reverse_bits performs no power-of-two check and never
fails: it unconditionally returns reverse_bits_len x (trailing_zeros n),
which for n = 2 ^ m (a usize power of two) equals reverse_bits_len x m,
i.e. reverse_bits_len at log2 n. -/
theorem reverse_bits_spec (x n m : Nat) (hm : m < 64) (hn : n = 2 ^ m) :
    reverse_bits x n = reverse_bits_len x (trailing_zeros n) ∧
    reverse_bits x n = reverse_bits_len x m := by
  subst hn
  refine ⟨rfl, ?_⟩
  have h : trailing_zeros (2 ^ m) = m := tzAux_two_pow 64 m hm
  simp only [reverse_bits, h]

/-- Witness for C5 (amended) at x = 1, n = 8 = 2 ^ 3. -/
theorem reverse_bits_spec_witness :
    reverse_bits 1 8 = reverse_bits_len 1 (trailing_zeros 8) ∧
    reverse_bits 1 8 = reverse_bits_len 1 3 :=
  reverse_bits_spec 1 8 3 (by decide) (by decide)

/-- C5 counterexample: n = 6 is not a power of two, yet reverse_bits does
not fail: it silently returns reverse_bits_len 1 (trailing_zeros 6) =
reverse_bits_len 1 1 = 1. -/
theorem reverse_bits_no_check_counterexample :
    reverse_bits 1 6 = reverse_bits_len 1 (trailing_zeros 6) ∧ reverse_bits 1 6 = 1 :=
  ⟨rfl, by decide⟩

/-! ### The in-place bit-reversal permutation -/

lemma listSwap_length {α : Type} (l : List α) (i j : Nat) :
    (listSwap l i j).length = l.length := by
  unfold listSwap
  split <;> simp

lemma listSwap_getElem? {α : Type} (l : List α) (i j p : Nat)
    (hi : i < l.length) (hj : j < l.length) :
    (listSwap l i j)[p]? = if p = i then l[j]? else if p = j then l[i]? else l[p]? := by
  unfold listSwap
  rw [List.getElem?_eq_getElem hi, List.getElem?_eq_getElem hj]
  simp only [List.getElem?_set, List.length_set, hi, hj, if_true]
  split_ifs <;>
    first
      | rfl
      | omega
      | (subst_vars; rfl)

lemma bitrevLoop_length {α : Type} (k : Nat) : ∀ fuel i (l : List α),
    (bitrevLoop k fuel i l).length = l.length := by
  intro fuel
  induction fuel with
  | zero => intro i l; rfl
  | succ fuel ih =>
    intro i l
    simp only [bitrevLoop]
    rw [ih]
    split
    · rw [listSwap_length]
    · rfl

lemma bitrevLoop_invariant {α : Type} (k : Nat) (orig : List α) (n : Nat)
    (hf1 : ∀ p, p < n → reverse_bits_len p k < n)
    (hf2 : ∀ p, p < n → reverse_bits_len (reverse_bits_len p k) k = p) :
    ∀ fuel i (l : List α), i + fuel = n → l.length = n →
      (∀ p, p < n → l[p]? =
        orig[if min p (reverse_bits_len p k) < i then reverse_bits_len p k else p]?) →
      ∀ p, p < n → (bitrevLoop k fuel i l)[p]? = orig[reverse_bits_len p k]? := by
  intro fuel
  induction fuel with
  | zero =>
    intro i l hin hlen hinv p hp
    have h := hinv p hp
    simp only [bitrevLoop]
    rw [h, if_pos (by omega)]
  | succ fuel ih =>
    intro i l hin hlen hinv p hp
    have hi_n : i < n := by omega
    have hj_n : reverse_bits_len i k < n := hf1 i hi_n
    simp only [bitrevLoop]
    refine ih (i + 1) _ (by omega) ?_ ?_ p hp
    · split
      · rw [listSwap_length]; exact hlen
      · exact hlen
    · intro q hq
      by_cases hswap : i < reverse_bits_len i k
      · rw [if_pos hswap,
          listSwap_getElem? l i (reverse_bits_len i k) q (by omega) (by omega)]
        by_cases hqi : q = i
        · subst hqi
          rw [if_pos rfl]
          have h1 := hinv (reverse_bits_len q k) (hf1 q hq)
          rw [hf2 q hq] at h1
          rw [h1, if_neg (by omega), if_pos (by omega)]
        · by_cases hqj : q = reverse_bits_len i k
          · rw [if_neg hqi, if_pos hqj]
            have h1 := hinv i hi_n
            rw [h1, if_neg (by omega)]
            subst hqj
            rw [hf2 i hi_n, if_pos (by omega)]
          · rw [if_neg hqi, if_neg hqj, hinv q hq]
            have hne : min q (reverse_bits_len q k) ≠ i := by
              intro hmin
              have hcases : q = i ∨ reverse_bits_len q k = i := by omega
              rcases hcases with hc | hc
              · exact hqi hc
              · apply hqj
                have h2 := hf2 q hq
                rw [hc] at h2
                omega
            by_cases hlt : min q (reverse_bits_len q k) < i
            · rw [if_pos hlt, if_pos (by omega)]
            · rw [if_neg hlt, if_neg (by omega)]
      · rw [if_neg hswap, hinv q hq]
        by_cases hlt : min q (reverse_bits_len q k) < i
        · rw [if_pos hlt, if_pos (by omega)]
        · by_cases heq : min q (reverse_bits_len q k) = i
          · have hfix : reverse_bits_len q k = q := by
              have hcases : q = i ∨ reverse_bits_len q k = i := by omega
              rcases hcases with hc | hc
              · subst hc
                omega
              · have h2 := hf2 q hq
                rw [hc] at h2
                omega
            rw [if_neg hlt, if_pos (by omega), hfix]
          · rw [if_neg hlt, if_neg (by omega)]

lemma reverse_slice_index_bits_ok {α : Type} (k : Nat) (hk : k < 64) (l : List α)
    (hl : l.length = 2 ^ k) :
    reverse_slice_index_bits l = Except.ok (bitrevLoop k (2 ^ k) 0 l) ∧
    ∀ p, p < l.length → (bitrevLoop k (2 ^ k) 0 l)[p]? = l[reverse_bits_len p k]? := by
  have hpos : (0:Nat) < 2 ^ k := Nat.pow_pos (by omega)
  constructor
  · simp only [reverse_slice_index_bits, hl, log2_strict_usize_two_pow k hk]
    rw [if_neg hpos.ne']
  · intro p hp
    rw [hl] at hp
    refine bitrevLoop_invariant k l (2 ^ k)
      (reverse_bits_len_mem k (by omega))
      (reverse_bits_len_involution k (by omega))
      (2 ^ k) 0 l (by omega) hl ?_ p hp
    intro q hq
    rw [if_neg (by omega)]

/-- C1: on a buffer of length 0, reverse_slice_index_bits is a no-op that
returns the buffer unchanged; on a buffer of length 2 ^ k it succeeds and
the element at index reverse_bits_len i k of the output equals the input
element at index i, for every i below the length. -/
theorem reverse_slice_index_bits_spec {α : Type} (l : List α) (k : Nat) (hk : k < 64) :
    (l.length = 0 → reverse_slice_index_bits l = Except.ok l) ∧
    (l.length = 2 ^ k → ∃ out, reverse_slice_index_bits l = Except.ok out ∧
      out.length = l.length ∧
      ∀ i, i < l.length → out[reverse_bits_len i k]? = l[i]?) := by
  constructor
  · intro h0
    simp [reverse_slice_index_bits, h0]
  · intro hl
    obtain ⟨hok, hpt⟩ := reverse_slice_index_bits_ok k hk l hl
    refine ⟨bitrevLoop k (2 ^ k) 0 l, hok, bitrevLoop_length k (2 ^ k) 0 l, ?_⟩
    intro i hi
    have hi2 : i < 2 ^ k := by omega
    have hfi : reverse_bits_len i k < l.length := by
      rw [hl]
      exact reverse_bits_len_mem k (by omega) i hi2
    rw [hpt (reverse_bits_len i k) hfi,
      reverse_bits_len_involution k (by omega) i hi2]

/-- Witness for C1 at the length-4 buffer [10, 20, 30, 40] with k = 2. -/
theorem reverse_slice_index_bits_spec_witness :
    ∃ out, reverse_slice_index_bits [10, 20, 30, 40] = Except.ok out ∧
      out.length = 4 ∧
      ∀ i, i < 4 → out[reverse_bits_len i 2]? = [10, 20, 30, 40][i]? := by
  have h := (reverse_slice_index_bits_spec ([10, 20, 30, 40] : List Nat) 2
    (by decide)).2 (by decide)
  simpa using h

/-- C2: applying reverse_slice_index_bits twice restores the original
buffer, both on the empty buffer and on every power-of-two-length
buffer. -/
theorem reverse_slice_index_bits_involution {α : Type} (l : List α) (k : Nat) (hk : k < 64)
    (h : l.length = 0 ∨ l.length = 2 ^ k) :
    ∃ out, reverse_slice_index_bits l = Except.ok out ∧
      reverse_slice_index_bits out = Except.ok l := by
  rcases h with h0 | hl
  · have hnil : l = [] := List.length_eq_zero.mp h0
    subst hnil
    exact ⟨[], rfl, rfl⟩
  · obtain ⟨hok1, hpt1⟩ := reverse_slice_index_bits_ok k hk l hl
    have hlen : (bitrevLoop k (2 ^ k) 0 l).length = l.length := bitrevLoop_length k (2 ^ k) 0 l
    have hl2 : (bitrevLoop k (2 ^ k) 0 l).length = 2 ^ k := by omega
    obtain ⟨hok2, hpt2⟩ := reverse_slice_index_bits_ok k hk (bitrevLoop k (2 ^ k) 0 l) hl2
    refine ⟨bitrevLoop k (2 ^ k) 0 l, hok1, ?_⟩
    rw [hok2]
    congr 1
    have hlen3 := bitrevLoop_length k (2 ^ k) 0 (bitrevLoop k (2 ^ k) 0 l)
    refine List.ext_getElem? fun p => ?_
    by_cases hp : p < 2 ^ k
    · have hfp : reverse_bits_len p k < 2 ^ k := reverse_bits_len_mem k (by omega) p hp
      rw [hpt2 p (by omega), hpt1 (reverse_bits_len p k) (by omega),
        reverse_bits_len_involution k (by omega) p hp]
    · have e1 : (bitrevLoop k (2 ^ k) 0 (bitrevLoop k (2 ^ k) 0 l))[p]? = none :=
        List.getElem?_eq_none (by omega)
      have e2 : l[p]? = none := List.getElem?_eq_none (by omega)
      rw [e1, e2]

/-- Witness for C2 at the length-4 buffer [1, 2, 3, 4] with k = 2. -/
theorem reverse_slice_index_bits_involution_witness :
    ∃ out, reverse_slice_index_bits [1, 2, 3, 4] = Except.ok out ∧
      reverse_slice_index_bits out = Except.ok [1, 2, 3, 4] :=
  reverse_slice_index_bits_involution ([1, 2, 3, 4] : List Nat) 2 (by decide)
    (Or.inr (by decide))

/-! ### bitmask and split_bits -/

/-- C4 (amended): bitmask w k returns 2 ^ k - 1 (the low-k-bits mask) for
every 0 ≤ k < w, with bitmask w 0 = 0; but at k = w the unchecked left
shift (one << n_bits) overflows, so the code panics (with overflow checks
enabled; the release-mode masked shift yields 0) instead of producing the
all-ones value. -/
theorem bitmask_spec (w k : Nat) (hk : k < w) :
    bitmask w k = Except.ok (2 ^ k - 1) ∧
    bitmask w 0 = Except.ok 0 ∧
    ∀ j, w ≤ j → bitmask w j = Except.error "attempt to shift left with overflow" := by
  refine ⟨by simp [bitmask, hk], ?_, ?_⟩
  · simp [bitmask, show 0 < w by omega]
  · intro j hj
    simp [bitmask, show ¬ j < w by omega]

/-- Witness for C4 (amended) at w = 64, k = 5. -/
theorem bitmask_spec_witness :
    bitmask 64 5 = Except.ok (2 ^ 5 - 1) ∧
    bitmask 64 0 = Except.ok 0 ∧
    ∀ j, 64 ≤ j → bitmask 64 j = Except.error "attempt to shift left with overflow" :=
  bitmask_spec 64 5 (by decide)

/-- C4 counterexample: at k = bit-width = 64 the shift overflows and the
call fails; it does not return the all-ones value 2 ^ 64 - 1. -/
theorem bitmask_full_width_counterexample :
    bitmask 64 64 = Except.error "attempt to shift left with overflow" ∧
    bitmask 64 64 ≠ Except.ok (2 ^ 64 - 1) := by
  refine ⟨rfl, fun h => ?_⟩
  simp [bitmask] at h

/-- C8 (amended): for 0 ≤ n < 64, split_bits succeeds and returns
(x >> n, x & ((1 << n) - 1)) = (x >>> n, x % 2 ^ n), and recombining with
(high << n) | low restores x; but at n = 64 (the bit width) both shifts
overflow and the call fails instead of succeeding. -/
theorem split_bits_spec (x n : Nat) (hx : x < 2 ^ 64) (hn : n < 64) :
    split_bits x n = Except.ok (x >>> n, x % 2 ^ n) ∧
    ((x >>> n) <<< n ||| x % 2 ^ n) = x ∧
    ∀ j, 64 ≤ j → split_bits x j = Except.error "attempt to shift with overflow" := by
  refine ⟨?_, ?_, ?_⟩
  · simp only [split_bits, USIZE_BITS]
    rw [if_pos hn, Nat.shiftLeft_eq, one_mul, Nat.and_pow_two_sub_one_eq_mod]
  · refine Nat.eq_of_testBit_eq fun i => ?_
    rw [Nat.testBit_lor, Nat.testBit_shiftLeft, Nat.testBit_mod_two_pow]
    by_cases h : i < n
    · simp [h, show ¬ n ≤ i from by omega]
    · simp [h, show n ≤ i from by omega, Nat.testBit_shiftRight]
  · intro j hj
    simp [split_bits, USIZE_BITS, show ¬ j < 64 by omega]

/-- Witness for C8 (amended) at x = 53, n = 3. -/
theorem split_bits_spec_witness :
    split_bits 53 3 = Except.ok (53 >>> 3, 53 % 2 ^ 3) ∧
    ((53 >>> 3) <<< 3 ||| 53 % 2 ^ 3) = 53 ∧
    ∀ j, 64 ≤ j → split_bits 53 j = Except.error "attempt to shift with overflow" :=
  split_bits_spec 53 3 (by decide) (by decide)

/-- C8 counterexample: at n = 64 (the bit width) split_bits does not
succeed with (x >> 64, x & bitmask 64): the shifts overflow and the call
fails. -/
theorem split_bits_full_width_counterexample :
    split_bits 5 64 = Except.error "attempt to shift with overflow" ∧
    split_bits 5 64 ≠ Except.ok (0, 5) := by
  refine ⟨rfl, fun h => ?_⟩
  simp [split_bits, USIZE_BITS] at h

/-! ### transpose_vec -/

lemma columnOf_ok {α : Type} : ∀ (v : List (List α)) (j : Nat),
    (∀ r ∈ v, j < r.length) →
    ∃ col : List α, columnOf v j = some col ∧ col.length = v.length ∧
      ∀ p : Nat, col[p]? = (v[p]?).bind fun r => r[j]? := by
  intro v
  induction v with
  | nil =>
    intro j _
    exact ⟨[], rfl, rfl, fun p => by simp⟩
  | cons r rs ih =>
    intro j hall
    have hr : j < r.length := hall r (by simp)
    obtain ⟨col, hcol, hlen, hpt⟩ := ih j (fun s hs => hall s (by simp [hs]))
    refine ⟨r[j] :: col, ?_, by simp [hlen], ?_⟩
    · simp only [columnOf, List.getElem?_eq_getElem hr, hcol]
    · intro p
      cases p with
      | zero => simp [List.getElem?_eq_getElem hr]
      | succ p => simpa using hpt p

lemma columnsFrom_ok {α : Type} (v : List (List α)) : ∀ (count j : Nat),
    (∀ r ∈ v, j + count ≤ r.length) →
    ∃ cs, columnsFrom v j count = some cs ∧ cs.length = count ∧
      ∀ i, i < count → cs[i]? = columnOf v (j + i) := by
  intro count
  induction count with
  | zero => intro j _; exact ⟨[], rfl, rfl, fun i hi => by omega⟩
  | succ count ih =>
    intro j hall
    obtain ⟨col, hcol, _, _⟩ := columnOf_ok v j (fun r hr => by have := hall r hr; omega)
    obtain ⟨cs, hcs, hlen, hpt⟩ := ih (j + 1) (fun r hr => by have := hall r hr; omega)
    refine ⟨col :: cs, ?_, by simp [hlen], ?_⟩
    · simp only [columnsFrom, hcol, hcs]
    · intro i hi
      cases i with
      | zero => simp [hcol]
      | succ i =>
        rw [show j + (i + 1) = j + 1 + i from by omega]
        simpa using hpt i (by omega)

lemma transpose_vec_ok {α : Type} (r : List α) (rs : List (List α))
    (h : ∀ row ∈ r :: rs, r.length ≤ row.length) :
    ∃ out, transpose_vec (r :: rs) = Except.ok out ∧ out.length = r.length ∧
      (∀ i, i < r.length → ∃ col, out[i]? = some col ∧ col.length = (r :: rs).length) ∧
      ∀ i j, i < r.length → get2? out i j = get2? (r :: rs) j i := by
  obtain ⟨cs, hcs, hlen, hpt⟩ := columnsFrom_ok (r :: rs) r.length 0
    (fun row hrow => by have := h row hrow; omega)
  refine ⟨cs, ?_, hlen, ?_, ?_⟩
  · simp only [transpose_vec, hcs]
  · intro i hi
    obtain ⟨col, hcol, hclen, _⟩ := columnOf_ok (r :: rs) i
      (fun row hrow => by have := h row hrow; omega)
    have hcs_i := hpt i hi
    rw [show (0:Nat) + i = i from by omega] at hcs_i
    exact ⟨col, by rw [hcs_i, hcol], hclen⟩
  · intro i j hi
    obtain ⟨col, hcol, hclen, hcpt⟩ := columnOf_ok (r :: rs) i
      (fun row hrow => by have := h row hrow; omega)
    have hcs_i := hpt i hi
    rw [show (0:Nat) + i = i from by omega] at hcs_i
    simp only [get2?, hcs_i, hcol, Option.some_bind]
    exact hcpt j

/-- C9: on a non-empty list of equal-length rows, transpose_vec succeeds
and returns the list of columns, with out[i][j] equal to in[j][i]; on the
empty outer list it fails its non-emptiness assertion. -/
theorem transpose_vec_spec {α : Type} (r : List α) (rs : List (List α))
    (h : ∀ row ∈ r :: rs, row.length = r.length) :
    (∃ out, transpose_vec (r :: rs) = Except.ok out ∧ out.length = r.length ∧
      ∀ i j, i < r.length → get2? out i j = get2? (r :: rs) j i) ∧
    transpose_vec ([] : List (List α)) = Except.error "assertion failed: !v.is_empty()" := by
  obtain ⟨out, h1, h2, _, h4⟩ := transpose_vec_ok r rs (fun row hrow => (h row hrow).ge)
  exact ⟨⟨out, h1, h2, h4⟩, rfl⟩

/-- Witness for C9 at [[1,2,3],[4,5,6]], which transposes to
[[1,4],[2,5],[3,6]], while the empty outer list fails. -/
theorem transpose_vec_spec_witness :
    ((∃ out, transpose_vec [[1, 2, 3], [4, 5, 6]] = Except.ok out ∧ out.length = 3 ∧
      ∀ i j, i < 3 → get2? out i j = get2? [[1, 2, 3], [4, 5, 6]] j i) ∧
    transpose_vec ([] : List (List Nat)) = Except.error "assertion failed: !v.is_empty()") ∧
    transpose_vec [[1, 2, 3], [4, 5, 6]] = Except.ok [[1, 4], [2, 5], [3, 6]] := by
  constructor
  · have h := transpose_vec_spec ([1, 2, 3] : List Nat) [[4, 5, 6]] (by decide)
    simpa using h
  · rfl

/-- C10: when every row is at least as long as the first row, transpose_vec
does not fail: it returns exactly (first row length) columns, each of
length (number of rows), built from the first (first row length) elements
of each row; excess elements of longer rows are silently discarded. -/
theorem transpose_vec_truncates {α : Type} (r : List α) (rs : List (List α))
    (h : ∀ row ∈ r :: rs, r.length ≤ row.length) :
    ∃ out, transpose_vec (r :: rs) = Except.ok out ∧ out.length = r.length ∧
      (∀ i, i < r.length → ∃ col, out[i]? = some col ∧ col.length = (r :: rs).length) ∧
      ∀ i j, i < r.length → get2? out i j = get2? (r :: rs) j i :=
  transpose_vec_ok r rs h

/-- Witness for C10 at [[1,2],[3,4,5]]: the longer second row is
truncated and the call succeeds with [[1,3],[2,4]]. -/
theorem transpose_vec_truncates_witness :
    (∃ out, transpose_vec [[1, 2], [3, 4, 5]] = Except.ok out ∧ out.length = 2 ∧
      (∀ i, i < 2 → ∃ col, out[i]? = some col ∧ col.length = 2) ∧
      ∀ i j, i < 2 → get2? out i j = get2? [[1, 2], [3, 4, 5]] j i) ∧
    transpose_vec [[1, 2], [3, 4, 5]] = Except.ok [[1, 3], [2, 4]] := by
  constructor
  · have h := transpose_vec_truncates ([1, 2] : List Nat) [[3, 4, 5]] (by decide)
    simpa using h
  · rfl

end P3Util
